import Mathlib

-- Verification of the RTF extraction parser of buda-base/tibetan-etext-tools.
-- The main model follows src/IE1PD100944/basic_rtf.py (BasicRTF.parse_file and
-- its helpers); a small auxiliary model covers the closing-brace branch of
-- src/IE00EGS1016703/basic_rtf.py.  Characters of the input document are Lean
-- Char values; decoded run text is kept as lists of Unicode code points
-- (List Nat) because the Python parser can produce lone surrogate code points
-- (via chr on a \uN escape) that Lean Char cannot carry.

namespace RTF

-- ---------------------------------------------------------------------------
-- Character classes used by the Python regexes (restricted to the ASCII range,
-- which is all the parser's control syntax uses).
-- ---------------------------------------------------------------------------

def isDigitC (c : Char) : Bool := decide ('0' ≤ c ∧ c ≤ '9')

def isLetterC (c : Char) : Bool :=
  decide (('a' ≤ c ∧ c ≤ 'z') ∨ ('A' ≤ c ∧ c ≤ 'Z'))

def isAlnumC (c : Char) : Bool := isLetterC c || isDigitC c

-- Python regex \s on the ASCII range: space, tab, newline, return, VT, FF.
def isPySpace (c : Char) : Bool :=
  decide (c = ' ' ∨ c = '\t' ∨ c = '\n' ∨ c = '\r' ∨ c = '\x0b' ∨ c = '\x0c')

-- The explicit whitespace set of the special-block handler: data[j] in ' \n\r\t'.
def isWs4 (c : Char) : Bool := decide (c = ' ' ∨ c = '\n' ∨ c = '\r' ∨ c = '\t')

def isHexDigitC (c : Char) : Bool :=
  decide (('0' ≤ c ∧ c ≤ '9') ∨ ('a' ≤ c ∧ c ≤ 'f') ∨ ('A' ≤ c ∧ c ≤ 'F'))

def hexVal (c : Char) : Nat :=
  if '0' ≤ c ∧ c ≤ '9' then c.toNat - '0'.toNat
  else if 'a' ≤ c ∧ c ≤ 'f' then c.toNat - 'a'.toNat + 10
  else if 'A' ≤ c ∧ c ≤ 'F' then c.toNat - 'A'.toNat + 10
  else 0

def digitsVal (l : List Char) : Nat :=
  l.foldl (fun a c => a * 10 + (c.toNat - '0'.toNat)) 0

-- ---------------------------------------------------------------------------
-- Regex matchers.  Each matcher inspects the suffix of the document starting
-- at the current scan position and returns the payload together with the
-- number of characters the Python re match consumes (m.end() - i).
-- ---------------------------------------------------------------------------

-- Pre-compiled pattern _RE_UNICODE = \u(-?\d+)\??   (basic_rtf.py line 11).
def matchUnicode (l : List Char) : Option (Int × Nat) :=
  match l with
  | '\\' :: 'u' :: t =>
    let neg : Bool := t.head? = some '-'
    let t1 := if neg then t.drop 1 else t
    let ds := t1.takeWhile isDigitC
    if ds.isEmpty then none
    else
      let t2 := t1.drop ds.length
      let q : Nat := if t2.head? = some '?' then 1 else 0
      let v : Int := Int.ofNat (digitsVal ds)
      some (if neg then -v else v, 2 + (if neg then 1 else 0) + ds.length + q)
  | _ => none

-- Pattern _RE_HEX_CHAR = \'HH with exactly two hex digits.
def matchHex (l : List Char) : Option (Nat × Nat) :=
  match l with
  | '\\' :: '\'' :: h1 :: h2 :: _ =>
    if isHexDigitC h1 && isHexDigitC h2 then some (16 * hexVal h1 + hexVal h2, 4)
    else none
  | _ => none

-- Shared shape of _RE_FONT_ID (\f), _RE_AFONT (\af) and _RE_FONT_SIZE (\fs):
-- a backslash, the keyword, one or more digits, and an optional trailing
-- whitespace character consumed by \s?.
def matchKwNum (kw : List Char) (l : List Char) : Option (Nat × Nat) :=
  if ('\\' :: kw).isPrefixOf l then
    let t := l.drop (kw.length + 1)
    let ds := t.takeWhile isDigitC
    if ds.isEmpty then none
    else
      let t2 := t.drop ds.length
      let sp : Nat := match t2 with | c :: _ => if isPySpace c then 1 else 0 | [] => 0
      some (digitsVal ds, 1 + kw.length + ds.length + sp)
  else none

def matchFontId (l : List Char) : Option (Nat × Nat) := matchKwNum ['f'] l

def matchAfont (l : List Char) : Option (Nat × Nat) := matchKwNum ['a', 'f'] l

def matchFontSize (l : List Char) : Option (Nat × Nat) := matchKwNum ['f', 's'] l

-- Shared shape of the keyword alternation patterns with a (?![a-zA-Z])
-- lookahead and a trailing \s?, e.g. _RE_CHARSET and _RE_DIRCTX.
def matchKwBare (kw : List Char) (l : List Char) : Option Nat :=
  if ('\\' :: kw).isPrefixOf l then
    let t := l.drop (kw.length + 1)
    match t with
    | [] => some (1 + kw.length)
    | c :: _ =>
      if isLetterC c then none
      else if isPySpace c then some (1 + kw.length + 1)
      else some (1 + kw.length)
  else none

inductive Charset where
  | loch | hich | dbch
deriving DecidableEq, Repr

inductive Dir where
  | ltrch | rtlch
deriving DecidableEq, Repr

-- Pattern _RE_CHARSET = \(loch|hich|dbch)(?![a-zA-Z])\s?.
def matchCharset (l : List Char) : Option (Charset × Nat) :=
  match matchKwBare ['l', 'o', 'c', 'h'] l with
  | some n => some (.loch, n)
  | none =>
  match matchKwBare ['h', 'i', 'c', 'h'] l with
  | some n => some (.hich, n)
  | none =>
  match matchKwBare ['d', 'b', 'c', 'h'] l with
  | some n => some (.dbch, n)
  | none => none

-- Pattern _RE_DIRCTX = \(ltrch|rtlch)(?![a-zA-Z])\s?.
def matchDirctx (l : List Char) : Option (Dir × Nat) :=
  match matchKwBare ['l', 't', 'r', 'c', 'h'] l with
  | some n => some (.ltrch, n)
  | none =>
  match matchKwBare ['r', 't', 'l', 'c', 'h'] l with
  | some n => some (.rtlch, n)
  | none => none

-- Pattern _RE_CONTROL_WORD = \[a-zA-Z]+-?\d*\s? (also the re.sub pattern used
-- by the font-table name extraction, where the minus sign is written \-).
def matchControlWord (l : List Char) : Option Nat :=
  match l with
  | '\\' :: t =>
    let ls := t.takeWhile isLetterC
    if ls.isEmpty then none
    else
      let t1 := t.drop ls.length
      let mn : Nat := match t1 with | '-' :: _ => 1 | _ => 0
      let t2 := t1.drop mn
      let ds := t2.takeWhile isDigitC
      let t3 := t2.drop ds.length
      let sp : Nat := match t3 with | c :: _ => if isPySpace c then 1 else 0 | [] => 0
      some (1 + ls.length + mn + ds.length + sp)
  | _ => none

-- ---------------------------------------------------------------------------
-- Events and parser state (the _streams entries and the mutable locals of
-- BasicRTF.parse_file).
-- ---------------------------------------------------------------------------

inductive SKind where
  | footnote | header | footer | pict
deriving DecidableEq, Repr

inductive Ev where
  | run (text : List Nat) (fid : Nat) (fname : List Char) (size : Nat) (cs ce : Nat)
  | parBrk (cs ce : Nat)
  | lineBrk (cs ce : Nat)
  | cellBrk (cs ce : Nat)
  | rowBrk (cs ce : Nat)
  | special (k : SKind) (text : List Nat) (fid : Nat) (fname : List Char)
      (size : Nat) (cs ce : Nat)
deriving DecidableEq, Repr

-- The char_end field of an event.
def ceOf : Ev → Nat
  | .run _ _ _ _ _ ce => ce
  | .parBrk _ ce => ce
  | .lineBrk _ ce => ce
  | .cellBrk _ ce => ce
  | .rowBrk _ ce => ce
  | .special _ _ _ _ _ _ ce => ce

-- The 2 x 3 effective-font map: eff[dirctx][charset], all slots initially 0.
structure EffMap where
  ll : Nat
  lh : Nat
  ld : Nat
  rl : Nat
  rh : Nat
  rd : Nat
deriving DecidableEq, Repr

def effZero : EffMap := ⟨0, 0, 0, 0, 0, 0⟩

def getEff (e : EffMap) : Dir → Charset → Nat
  | .ltrch, .loch => e.ll
  | .ltrch, .hich => e.lh
  | .ltrch, .dbch => e.ld
  | .rtlch, .loch => e.rl
  | .rtlch, .hich => e.rh
  | .rtlch, .dbch => e.rd

def setEff (e : EffMap) : Dir → Charset → Nat → EffMap
  | .ltrch, .loch, v => { e with ll := v }
  | .ltrch, .hich, v => { e with lh := v }
  | .ltrch, .dbch, v => { e with ld := v }
  | .rtlch, .loch, v => { e with rl := v }
  | .rtlch, .hich, v => { e with rh := v }
  | .rtlch, .dbch, v => { e with rd := v }

-- A scope frame: the tuple (font_size, charset, dirctx, eff-copy) pushed on
-- an opening brace; since Lean values are immutable, storing the EffMap by
-- value is exactly the deep copy the Python code performs.
structure Fmt where
  fontSize : Nat
  charset : Charset
  dirctx : Dir
  eff : EffMap
deriving DecidableEq, Repr

structure St where
  fontSize : Nat
  charset : Charset
  dirctx : Dir
  eff : EffMap
  stack : List Fmt
  buf : List Nat
  charStart : Nat
  streams : List Ev
deriving DecidableEq, Repr

def fmtOf (st : St) : Fmt := ⟨st.fontSize, st.charset, st.dirctx, st.eff⟩

def initSt : St := ⟨24, .loch, .ltrch, effZero, [], [], 0, []⟩

-- Font table: list of (id, name) entries; the dict {f["id"]: f} lets a later
-- entry with the same id overwrite an earlier one.
def FontMap := List (Nat × List Char)

def lookupFont (fm : FontMap) (fid : Nat) : List Char :=
  (fm.foldl (fun a p => if p.1 = fid then some p.2 else a) none).getD []

-- get_fid(): read the effective-font slot of the current pair.
def getFid (st : St) : Nat := getEff st.eff st.dirctx st.charset

-- _clean_text: strip RTF source line terminators from buffered text.
def cleanBuf (l : List Nat) : List Nat := l.filter (fun c => c ≠ 13 ∧ c ≠ 10)

-- The inline flush used on closing braces and before state changes: if the
-- buffer is non-empty, emit a TextRun (unless cleaning leaves it empty) with
-- char_end = ce and the attribution of the current state, and clear the
-- buffer; char_start is left for the caller to update.
def emitRunIf (fm : FontMap) (st : St) (ce : Nat) : St :=
  match st.buf with
  | [] => st
  | _ =>
    let t := cleanBuf st.buf
    if t.isEmpty then { st with buf := [] }
    else
      { st with
          buf := [],
          streams := st.streams ++
            [Ev.run t (getFid st) (lookupFont fm (getFid st)) (st.fontSize / 2)
              st.charStart ce] }

-- flush_text(end_pos): like the inline flush but always resets char_start.
def flushText (fm : FontMap) (st : St) (endPos : Nat) : St :=
  { emitRunIf fm st endPos with charStart := endPos }

-- The font-selection assignment eff[dirctx][charset] = N shared by the \fN
-- and \afN branches.
def selectFont (st : St) (v : Nat) : St :=
  { st with eff := setEff st.eff st.dirctx st.charset v }

-- ---------------------------------------------------------------------------
-- Brace counting (the while loops "while i < data_len and brace_level > 0").
-- skipGroupB returns the number of characters consumed and whether the level
-- actually returned to zero before the end of input.
-- ---------------------------------------------------------------------------

def skipGroupB : List Char → Nat → Nat × Bool
  | _, 0 => (0, true)
  | [], _ + 1 => (0, false)
  | c :: r, lvl + 1 =>
    let nl := if c = '{' then lvl + 2 else if c = '}' then lvl else lvl + 1
    let p := skipGroupB r nl
    (p.1 + 1, p.2)

def skipGroup (l : List Char) (lvl : Nat) : Nat := (skipGroupB l lvl).1

-- ---------------------------------------------------------------------------
-- The skip_sections pre-check of the scan loop.
-- ---------------------------------------------------------------------------

def skipSections : List (List Char) :=
  [("\x7b\\fonttbl").data, ("\x7b\\colortbl").data, ("\x7b\\stylesheet").data,
   ("\x7b\\info").data, ("\x7b\\listtable").data, ("\x7b\\listoverridetable").data,
   ("\x7b\\*\\generator").data, ("\x7b\\*\\rsidtbl").data, ("\x7b\\*\\pgptbl").data,
   ("\x7b\\mmathPr").data, ("\x7b\\footer").data, ("\x7b\\header").data]

def trySkipSection (rest : List Char) : Option Nat :=
  (skipSections.find? (fun s => s.isPrefixOf rest)).map
    (fun s => s.length + skipGroup (rest.drop s.length) 1)

-- ---------------------------------------------------------------------------
-- Special blocks (footnote/header/footer/pict followed by a group).
-- ---------------------------------------------------------------------------

def specialKeywords : List (List Char × SKind) :=
  [(['\\', 'f', 'o', 'o', 't', 'n', 'o', 't', 'e'], .footnote),
   (['\\', 'h', 'e', 'a', 'd', 'e', 'r'], .header),
   (['\\', 'f', 'o', 'o', 't', 'e', 'r'], .footer),
   (['\\', 'p', 'i', 'c', 't'], .pict)]

-- After a complete keyword match: skip over ' \n\r\t', then either consume
-- the following group and emit one SpecialBlock event, or just advance to j.
def specialTail (fm : FontMap) (i : Nat) (st : St) (kw : List Char)
    (ty : SKind) (rest : List Char) : Nat × St :=
  let ws := ((rest.drop kw.length).takeWhile isWs4).length
  let j := kw.length + ws
  if rest[j]? = some '{' then
    let g := skipGroup (rest.drop (j + 1)) 1
    let inner := (rest.drop (j + 1)).take (g - 1)
    (j + 1 + g,
      { st with streams := st.streams ++
        [Ev.special ty (inner.map Char.toNat) (getFid st)
          (lookupFont fm (getFid st)) (st.fontSize / 2) (i + j)
          (i + j + 1 + g)] })
  else (j, st)

-- One pass over the keyword dictionary in order, with the Python continue on
-- an incomplete keyword (next character alphanumeric).
def trySpecialGo (fm : FontMap) (i : Nat) (st : St) :
    List (List Char × SKind) → List Char → Option (Nat × St)
  | [], _ => none
  | (kw, ty) :: kws, rest =>
    if kw.isPrefixOf rest then
      match rest[kw.length]? with
      | some c =>
        if isAlnumC c then trySpecialGo fm i st kws rest
        else some (specialTail fm i st kw ty rest)
      | none => some (specialTail fm i st kw ty rest)
    else trySpecialGo fm i st kws rest

def trySpecial (fm : FontMap) (rest : List Char) (i : Nat) (st : St) :
    Option (Nat × St) :=
  trySpecialGo fm i st specialKeywords rest

-- The ignore-group test: c == '{' and i + 2 < data_len and data[i+1] == '\'
-- and data[i+2] == '*'.
def isIgnoreGroup (rest : List Char) : Bool :=
  match rest with
  | '{' :: '\\' :: '*' :: _ => true
  | _ => false

-- ---------------------------------------------------------------------------
-- The escaped-control-symbol handler (\{, \}, \\): the inner while loop that
-- greedily consumes directionality/charset/script-font/base-font/size control
-- words immediately following the symbol, flushing the pending run (at the
-- position fp of the backslash) before the first one.  The fuel argument is
-- initialised with the length of the remaining input; every successful match
-- consumes at least one character, so the fuel never runs out early (and all
-- matchers fail on the empty list, so the 0 case coincides with the loop's
-- own exit).
-- ---------------------------------------------------------------------------

-- The five kinds of control word the inner loop recognises, tried in source
-- order: directionality, charset, script font, base font, font size.
inductive EscAct where
  | dir (d : Dir)
  | chset (c : Charset)
  | afont (v : Nat)
  | fid (v : Nat)
  | fsize (v : Nat)
deriving DecidableEq, Repr

def matchEscFmt (l : List Char) : Option (EscAct × Nat) :=
  match matchDirctx l with
  | some (d, n) => some (.dir d, n)
  | none =>
  match matchCharset l with
  | some (c, n) => some (.chset c, n)
  | none =>
  match matchAfont l with
  | some (v, n) => some (.afont v, n)
  | none =>
  match matchFontId l with
  | some (v, n) => some (.fid v, n)
  | none =>
  match matchFontSize l with
  | some (v, n) => some (.fsize v, n)
  | none => none

-- The corresponding state change of each branch body.
def applyEscAct (st : St) : EscAct → St
  | .dir d => { st with dirctx := d }
  | .chset c => { st with charset := c }
  | .afont v => selectFont st v
  | .fid v => selectFont st v
  | .fsize v => { st with fontSize := v }

def escFmtLoop (fm : FontMap) (fp : Nat) :
    Nat → List Char → St → Bool → Nat × St × Bool
  | 0, _, st, saw => (0, st, saw)
  | fuel + 1, l, st, saw =>
    match matchEscFmt l with
    | some (act, n) =>
      let st1 := if saw then st else emitRunIf fm st fp
      let r := escFmtLoop fm fp fuel (l.drop n) (applyEscAct st1 act) true
      (n + r.1, r.2)
    | none => (0, st, saw)

-- Which escaped control symbol starts here (checked for \{, \} and \\ in
-- order; the emitted character is the symbol itself).
def escSym (rest : List Char) : Option Char :=
  match rest with
  | '\\' :: c :: _ => if c = '{' ∨ c = '}' ∨ c = '\\' then some c else none
  | _ => none

-- chr(codepoint) with the try/except fallback to '?': the RTF \uN parameter
-- is interpreted as 16-bit signed, and chr raises outside range(0x110000).
def uDecode (v : Int) : Nat :=
  let cp : Int := if v < 0 then v + 65536 else v
  if 0 ≤ cp ∧ cp < 1114112 then cp.toNat else 63

-- The whole elif c == '\' cascade of the scan loop (after the special-block
-- check), in source order.  Returns the number of characters consumed and
-- the new state.
def backslashStep (fm : FontMap) (rest : List Char) (i : Nat) (st : St) :
    Nat × St :=
  match matchUnicode rest with
  | some (v, n) => (n, { st with buf := st.buf ++ [uDecode v] })
  | none =>
  match rest with
  | '\\' :: '~' :: _ => (2, { st with buf := st.buf ++ [160] })
  | _ =>
  match rest with
  | '\\' :: '-' :: _ => (2, st)
  | _ =>
  match escSym rest with
  | some c =>
    let r := escFmtLoop fm i (rest.drop 2).length (rest.drop 2) st false
    let stA := if r.2.2 then { r.2.1 with charStart := i } else r.2.1
    (2 + r.1, { stA with buf := stA.buf ++ [c.toNat] })
  | none =>
  match matchHex rest with
  | some (v, n) => (n, { st with buf := st.buf ++ [v] })
  | none =>
  match matchDirctx rest with
  | some (d, n) =>
    (n, { emitRunIf fm st i with dirctx := d, charStart := i + n })
  | none =>
  match matchCharset rest with
  | some (cs, n) =>
    (n, { emitRunIf fm st i with charset := cs, charStart := i + n })
  | none =>
  match matchAfont rest with
  | some (v, n) =>
    (n, { selectFont (emitRunIf fm st i) v with charStart := i + n })
  | none =>
  match matchFontId rest with
  | some (v, n) =>
    (n, { selectFont (emitRunIf fm st i) v with charStart := i + n })
  | none =>
  match matchFontSize rest with
  | some (v, n) =>
    (n, { emitRunIf fm st i with fontSize := v, charStart := i + n })
  | none =>
  match matchKwBare ['p', 'a', 'r'] rest with
  | some n =>
    let st1 := flushText fm st i
    (n, { st1 with
            streams := st1.streams ++ [Ev.parBrk i (i + n)],
            charStart := i + n })
  | none =>
  match matchKwBare ['l', 'i', 'n', 'e'] rest with
  | some n =>
    let st1 := flushText fm st i
    (n, { st1 with
            streams := st1.streams ++ [Ev.lineBrk i (i + n)],
            charStart := i + n })
  | none =>
  match matchKwBare ['c', 'e', 'l', 'l'] rest with
  | some n =>
    let st1 := flushText fm st i
    (n, { st1 with
            streams := st1.streams ++ [Ev.cellBrk i (i + n)],
            charStart := i + n })
  | none =>
  match matchKwBare ['r', 'o', 'w'] rest with
  | some n =>
    let st1 := flushText fm st i
    (n, { st1 with
            streams := st1.streams ++ [Ev.rowBrk i (i + n)],
            charStart := i + n })
  | none =>
  match matchControlWord rest with
  | some n => (n, st)
  | none => (1, st)

-- The closing-brace branch: inline flush with char_end = i, then pop and
-- restore all four fields when the stack is non-empty (a no-op otherwise),
-- then advance and reset char_start.
def closeBrace (fm : FontMap) (i : Nat) (st : St) : Nat × St :=
  let st1 := emitRunIf fm st i
  match st1.stack with
  | [] => (1, { st1 with charStart := i + 1 })
  | f :: t =>
    (1, { st1 with
            fontSize := f.fontSize, charset := f.charset, dirctx := f.dirctx,
            eff := f.eff, stack := t, charStart := i + 1 })

-- One iteration of the main while loop of parse_file, dispatching in source
-- order: skip_sections, special keywords (only relevant when the current
-- character is a backslash), ignorable {\* groups, braces, escapes, and
-- literal text.  The empty-input case is never reached by the scanner, which
-- stops before it.
def stepFn (fm : FontMap) (rest : List Char) (i : Nat) (st : St) : Nat × St :=
  match trySkipSection rest with
  | some n => (n, st)
  | none =>
    match rest with
    | [] => (1, st)
    | c :: _ =>
      if c = '\\' then
        match trySpecial fm rest i st with
        | some r => r
        | none => backslashStep fm rest i st
      else if isIgnoreGroup rest then (3 + skipGroup (rest.drop 3) 1, st)
      else if c = '{' then (1, { st with stack := fmtOf st :: st.stack })
      else if c = '}' then closeBrace fm i st
      else (1, { st with buf := st.buf ++ [c.toNat] })

-- The scan loop.  The fuel argument is initialised with the length of the
-- remaining input; since every iteration consumes at least one character
-- (theorem stepFn_pos below), the fuel can only reach zero when the input is
-- exhausted, where the loop performs the final flush either way.
def scanGo (fm : FontMap) : Nat → List Char → Nat → St → St
  | 0, _, i, st => emitRunIf fm st i
  | fuel + 1, rest, i, st =>
    if rest.isEmpty then emitRunIf fm st i
    else
      let r := stepFn fm rest i st
      scanGo fm fuel (rest.drop r.1) (i + r.1) r.2

def scanAux (fm : FontMap) (rest : List Char) (i : Nat) (st : St) : St :=
  scanGo fm rest.length rest i st

-- The number of loop iterations the scan performs.
def scanCountGo (fm : FontMap) : Nat → List Char → Nat → St → Nat
  | 0, _, _, _ => 0
  | fuel + 1, rest, i, st =>
    if rest.isEmpty then 0
    else
      let r := stepFn fm rest i st
      1 + scanCountGo fm fuel (rest.drop r.1) (i + r.1) r.2

def scanCount (fm : FontMap) (rest : List Char) (i : Nat) (st : St) : Nat :=
  scanCountGo fm rest.length rest i st

-- ---------------------------------------------------------------------------
-- Font-table pre-pass (detect_rtf_format, _parse_font_table and the two
-- format-specific entry parsers).
-- ---------------------------------------------------------------------------

-- str.find: position of the first occurrence of pat.
def findSubstr (pat : List Char) : List Char → Option Nat
  | [] => if pat.isEmpty then some 0 else none
  | l@(_ :: r) =>
    if pat.isPrefixOf l then some 0
    else (findSubstr pat r).map (· + 1)

-- One attempt of the detection regex \panose[^}]*\}Dedris at this position:
-- the greedy [^}]* runs to the first closing brace, which must be followed by
-- the literal name.
def panoseAt (l : List Char) : Bool :=
  if ("\\panose").data.isPrefixOf l then
    match (l.drop 7).dropWhile (fun c => c ≠ '}') with
    | '}' :: t => ("Dedris").data.isPrefixOf t
    | _ => false
  else false

def panoseSearch : List Char → Bool
  | [] => false
  | l@(_ :: r) => panoseAt l || panoseSearch r

inductive Format where
  | simple | complex
deriving DecidableEq, Repr

-- detect_rtf_format reads the first 100000 characters and looks for a Dedris
-- font entry carrying a panose group.
def detectFormat (data : List Char) : Format :=
  if panoseSearch (data.take 100000) then .complex else .simple

-- _strip_nested_groups: drop the contents of nested brace groups, keeping the
-- first opening brace and any closing brace seen at level zero.
def stripNested : List Char → Nat → Bool → List Char
  | [], _, _ => []
  | c :: r, lvl, firstSeen =>
    if c = '{' then
      if firstSeen then stripNested r (lvl + 1) firstSeen
      else '{' :: stripNested r lvl true
    else if c = '}' then
      if 0 < lvl then stripNested r (lvl - 1) firstSeen
      else '}' :: stripNested r lvl firstSeen
    else if lvl = 0 then c :: stripNested r lvl firstSeen
    else stripNested r lvl firstSeen

-- re.sub of the control-word pattern with the empty string: remove each
-- leftmost non-overlapping match, keeping other characters.  Fuelled by the
-- input length (each match consumes at least one character).
def removeCtrlWords : Nat → List Char → List Char
  | 0, _ => []
  | _ + 1, [] => []
  | fuel + 1, l@(c :: r) =>
    match matchControlWord l with
    | some n => removeCtrlWords fuel (l.drop n)
    | none => c :: removeCtrlWords fuel r

-- Python str.strip() on the ASCII whitespace range.
def stripPyWs (l : List Char) : List Char :=
  ((l.dropWhile isPySpace).reverse.dropWhile isPySpace).reverse

-- The top-level brace-delimited entries of the font-table body: the
-- brace_level/entry_start scan shared by both table parsers.  The running
-- level is a signed integer exactly as in Python (a stray closing brace
-- drives it negative, and an entry only starts at an opening brace seen at
-- level exactly zero); an unterminated final entry is never appended.
def topEntries : Nat → Int → List Char → List (List Char)
  | 0, _, _ => []
  | _ + 1, _, [] => []
  | fuel + 1, lvl, '{' :: r =>
    if lvl = 0 then
      let p := skipGroupB r 1
      if p.2 then ('{' :: r.take p.1) :: topEntries fuel 0 (r.drop p.1)
      else []
    else topEntries fuel (lvl + 1) r
  | fuel + 1, lvl, '}' :: r => topEntries fuel (lvl - 1) r
  | fuel + 1, lvl, _ :: r => topEntries fuel lvl r

-- Font id of an entry in the simple format: re.match(r'\{\\f(\d+)', entry).
def entryFidSimple (entry : List Char) : Option Nat :=
  match entry with
  | '{' :: '\\' :: 'f' :: t =>
    let ds := t.takeWhile isDigitC
    if ds.isEmpty then none else some (digitsVal ds)
  | _ => none

-- Font id in the complex format: re.search(r'\\f(\d+)', entry), i.e. the
-- first backslash-f-digits occurrence anywhere in the entry (a \f with no
-- digit after it does not match, and the search moves on).
def entryFidComplex : List Char → Option Nat
  | '\\' :: 'f' :: t =>
    let ds := t.takeWhile isDigitC
    if ds.isEmpty then entryFidComplex ('f' :: t) else some (digitsVal ds)
  | _ :: r => entryFidComplex r
  | [] => none

-- Shared name extraction: strip nested groups, remove control words, remove
-- braces, take the text before the first semicolon, strip whitespace.
def entryName (entry : List Char) : List Char :=
  let cleaned := stripNested entry 0 false
  let cleaned := removeCtrlWords cleaned.length cleaned
  let cleaned := cleaned.filter (fun c => c ≠ '{' ∧ c ≠ '}')
  stripPyWs (cleaned.takeWhile (fun c => c ≠ ';'))

def parseFontEntries (fidOf : List Char → Option Nat) (entries : List (List Char)) :
    List (Nat × List Char) :=
  entries.foldr
    (fun entry acc =>
      match fidOf entry with
      | some fid =>
        let name := entryName entry
        if name.isEmpty then acc else (fid, name) :: acc
      | none => acc) []

-- _parse_font_table: locate the first {\fonttbl destination, cut out its body
-- (everything after the prefix and before the matching close), and run the
-- format-specific entry parser.
def parseFontTable (fmtv : Format) (data : List Char) : FontMap :=
  match findSubstr ("\x7b\\fonttbl").data data with
  | none => []
  | some p =>
    let r := data.drop (p + 9)
    let g := skipGroup r 1
    let tbl := r.take (g - 1)
    let fidOf := match fmtv with
      | .complex => entryFidComplex
      | .simple => entryFidSimple
    parseFontEntries fidOf (topEntries tbl.length 0 tbl)

-- parse_file on an in-memory document: detect the format, build the font
-- table, scan from offset 0 in the initial state, and return the emitted
-- event stream.
def parseFile (data : List Char) : List Ev :=
  let fmtv := detectFormat data
  let fm := parseFontTable fmtv data
  (scanAux fm data 0 initSt).streams

-- Convenience: parse a Lean string literal as the raw document.
def parseStr (s : String) : List Ev := parseFile s.data

-- ---------------------------------------------------------------------------
-- The closing-brace branch of the IE00EGS1016703 variant (basic_rtf.py lines
-- 169-185 of that file).  That parser keeps only (font_id, font_size) pairs on
-- its stack and pops unconditionally: with an empty stack, stack.pop() raises
-- IndexError, modelled here as none.  The text buffer is cleared only when the
-- flush test text.strip() is truthy.
-- ---------------------------------------------------------------------------

structure EgsSt where
  text : List Nat
  fontId : Nat
  fontSize : Nat
  stack : List (Nat × Nat)
  charStart : Nat
  streams : List Ev
deriving DecidableEq, Repr

def egsHasNonWs (l : List Nat) : Bool :=
  l.any (fun c => !(c = 32 ∨ c = 9 ∨ c = 10 ∨ c = 13 ∨ c = 11 ∨ c = 12))

def egsCloseBrace (fm : FontMap) (i : Nat) (st : EgsSt) : Option EgsSt :=
  let flushed :=
    if egsHasNonWs st.text then
      { st with
          text := [],
          streams := st.streams ++
            [Ev.run st.text st.fontId (lookupFont fm st.fontId)
              (st.fontSize / 2) st.charStart i] }
    else st
  match flushed.stack with
  | [] => none
  | (fid, fs) :: t =>
    some { flushed with
             fontId := fid, fontSize := fs, stack := t, charStart := i + 1 }

-- ---------------------------------------------------------------------------
-- Small-step view of the scan loop, used to state the scope-restoration
-- invariant: a configuration is the remaining input, the current offset and
-- the parser state, and one step is one iteration of the while loop.
-- ---------------------------------------------------------------------------

structure Config where
  rest : List Char
  i : Nat
  st : St
deriving DecidableEq, Repr

def doStep (fm : FontMap) (c : Config) : Config :=
  let r := stepFn fm c.rest c.i c.st
  ⟨c.rest.drop r.1, c.i + r.1, r.2⟩

def stepRel (fm : FontMap) (c c' : Config) : Prop :=
  ¬ c.rest.isEmpty ∧ c' = doStep fm c

-- Executions in which every performed step starts from a configuration whose
-- scope stack is deeper than n (the scan stays inside the group opened at
-- depth n).
inductive StepsDeep (fm : FontMap) (n : Nat) : Config → Config → Prop where
  | refl (c : Config) : StepsDeep fm n c c
  | tail {a b c : Config} : StepsDeep fm n a b → n < b.st.stack.length →
      stepRel fm b c → StepsDeep fm n a c

-- The bottom k frames of a stack (the stack grows at the head).
def dropToDepth (k : Nat) (s : List Fmt) : List Fmt := s.drop (s.length - k)

-- How one step may change the scope stack: unchanged, push of a snapshot of
-- the current formatting state (leaving that state intact), or pop of the
-- head frame into the formatting state.
def stackShape (st st' : St) : Prop :=
  st'.stack = st.stack ∨
  (st'.stack = fmtOf st :: st.stack ∧ fmtOf st' = fmtOf st) ∨
  (∃ t, st.stack = fmtOf st' :: t ∧ st'.stack = t)

-- The events appended by one step: they extend the stream, their char_end
-- offsets lie in the consumed interval, and they are emitted in
-- non-decreasing char_end order.
def stepStreamsOk (i n : Nat) (st st' : St) : Prop :=
  ∃ ex, st'.streams = st.streams ++ ex ∧
    (∀ e ∈ ex, i ≤ ceOf e ∧ ceOf e ≤ i + n) ∧
    List.Pairwise (fun a b => ceOf a ≤ ceOf b) ex

-- ---------------------------------------------------------------------------
-- Helper lemmas about the emit helpers.
-- ---------------------------------------------------------------------------

theorem emitRunIf_stack (fm : FontMap) (st : St) (ce : Nat) :
    (emitRunIf fm st ce).stack = st.stack := by
  unfold emitRunIf
  cases st.buf <;> simp only <;> split <;> rfl

theorem emitRunIf_fmt (fm : FontMap) (st : St) (ce : Nat) :
    fmtOf (emitRunIf fm st ce) = fmtOf st := by
  unfold emitRunIf
  cases st.buf <;> simp only <;> split <;> rfl

theorem emitRunIf_charStart (fm : FontMap) (st : St) (ce : Nat) :
    (emitRunIf fm st ce).charStart = st.charStart := by
  unfold emitRunIf
  cases st.buf <;> simp only <;> split <;> rfl

theorem emitRunIf_streams (fm : FontMap) (st : St) (ce : Nat) :
    ∃ ex, (emitRunIf fm st ce).streams = st.streams ++ ex ∧
      (ex = [] ∨ ∃ ev, ex = [ev] ∧ ceOf ev = ce) := by
  unfold emitRunIf
  cases st.buf with
  | nil => exact ⟨[], by simp⟩
  | cons a as =>
    simp only
    split
    · exact ⟨[], by simp⟩
    · refine ⟨[Ev.run (cleanBuf (a :: as)) (getFid st) (lookupFont fm (getFid st))
        (st.fontSize / 2) st.charStart ce], by simp, ?_⟩
      exact Or.inr ⟨_, rfl, rfl⟩

theorem applyEscAct_stack (st : St) (a : EscAct) :
    (applyEscAct st a).stack = st.stack := by
  cases a <;> rfl

theorem applyEscAct_streams (st : St) (a : EscAct) :
    (applyEscAct st a).streams = st.streams := by
  cases a <;> rfl

theorem escFmtLoop_stack (fm : FontMap) (fp : Nat) :
    ∀ (fuel : Nat) (l : List Char) (st : St) (saw : Bool),
      (escFmtLoop fm fp fuel l st saw).2.1.stack = st.stack := by
  intro fuel
  induction fuel with
  | zero => intro l st saw; rfl
  | succ fuel ih =>
    intro l st saw
    unfold escFmtLoop
    cases hm : matchEscFmt l with
    | none => rfl
    | some p =>
      rcases p with ⟨act, n⟩
      simp only
      rw [ih]
      rw [applyEscAct_stack]
      cases saw <;> simp [emitRunIf_stack]

theorem escFmtLoop_streams (fm : FontMap) (fp : Nat) :
    ∀ (fuel : Nat) (l : List Char) (st : St) (saw : Bool),
      ∃ ex, (escFmtLoop fm fp fuel l st saw).2.1.streams = st.streams ++ ex ∧
        (ex = [] ∨ (saw = false ∧ ∃ ev, ex = [ev] ∧ ceOf ev = fp)) := by
  intro fuel
  induction fuel with
  | zero => intro l st saw; exact ⟨[], by simp [escFmtLoop], Or.inl rfl⟩
  | succ fuel ih =>
    intro l st saw
    unfold escFmtLoop
    cases hm : matchEscFmt l with
    | none => exact ⟨[], by simp, Or.inl rfl⟩
    | some p =>
      rcases p with ⟨act, n⟩
      simp only
      cases saw with
      | true =>
        obtain ⟨ex, hex, hsh⟩ := ih (l.drop n) (applyEscAct st act) true
        have hx : ex = [] := by
          rcases hsh with h | ⟨h, _⟩
          · exact h
          · exact absurd h (by simp)
        refine ⟨[], ?_, Or.inl rfl⟩
        have h1 : (escFmtLoop fm fp fuel (l.drop n) (applyEscAct st act)
            true).2.1.streams = st.streams := by
          rw [hex, applyEscAct_streams, hx, List.append_nil]
        simpa using h1
      | false =>
        obtain ⟨ex, hex, hsh⟩ :=
          ih (l.drop n) (applyEscAct (emitRunIf fm st fp) act) true
        obtain ⟨ex0, hex0, hsh0⟩ := emitRunIf_streams fm st fp
        have hx : ex = [] := by
          rcases hsh with h | ⟨h, _⟩
          · exact h
          · exact absurd h (by simp)
        refine ⟨ex0, ?_, ?_⟩
        · have h1 : (escFmtLoop fm fp fuel (l.drop n)
              (applyEscAct (emitRunIf fm st fp) act) true).2.1.streams =
              st.streams ++ ex0 := by
            rw [hex, applyEscAct_streams, hx, List.append_nil, hex0]
          simpa using h1
        · rcases hsh0 with h | ⟨ev, hev, hce⟩
          · exact Or.inl h
          · exact Or.inr ⟨rfl, ev, hev, hce⟩

theorem trySpecialGo_cons (fm : FontMap) (i : Nat) (st : St) (kw : List Char)
    (ty : SKind) (kws : List (List Char × SKind)) (rest : List Char) :
    trySpecialGo fm i st ((kw, ty) :: kws) rest =
      (if kw.isPrefixOf rest then
        match rest[kw.length]? with
        | some c =>
          if isAlnumC c then trySpecialGo fm i st kws rest
          else some (specialTail fm i st kw ty rest)
        | none => some (specialTail fm i st kw ty rest)
      else trySpecialGo fm i st kws rest) := rfl

theorem specialTail_spec (fm : FontMap) (i : Nat) (st : St) (kw : List Char)
    (ty : SKind) (rest : List Char) :
    (specialTail fm i st kw ty rest).2.stack = st.stack ∧
    fmtOf (specialTail fm i st kw ty rest).2 = fmtOf st ∧
    (specialTail fm i st kw ty rest).2.buf = st.buf ∧
    (specialTail fm i st kw ty rest).2.charStart = st.charStart ∧
    (∃ ex, (specialTail fm i st kw ty rest).2.streams = st.streams ++ ex ∧
      (ex = [] ∨ ∃ ev, ex = [ev] ∧
        ceOf ev = i + (specialTail fm i st kw ty rest).1)) ∧
    (kw ≠ [] → 1 ≤ (specialTail fm i st kw ty rest).1) := by
  simp only [specialTail]
  split
  · refine ⟨rfl, rfl, rfl, rfl, ⟨_, rfl, Or.inr ⟨_, rfl, ?_⟩⟩, fun _ => ?_⟩
    · simp only [ceOf]
      omega
    · simp only
      omega
  · refine ⟨rfl, rfl, rfl, rfl, ⟨[], by simp, Or.inl rfl⟩, fun hkw => ?_⟩
    simp only
    have h1 : 1 ≤ kw.length := by
      cases kw with
      | nil => exact absurd rfl hkw
      | cons a as => simp
    omega

theorem trySpecialGo_spec (fm : FontMap) (i : Nat) (st : St) :
    ∀ (kws : List (List Char × SKind)) (rest : List Char) (n : Nat) (st' : St),
      trySpecialGo fm i st kws rest = some (n, st') →
      st'.stack = st.stack ∧ fmtOf st' = fmtOf st ∧ st'.buf = st.buf ∧
      st'.charStart = st.charStart ∧
      (∃ ex, st'.streams = st.streams ++ ex ∧
        (ex = [] ∨ ∃ ev, ex = [ev] ∧ ceOf ev = i + n)) ∧
      ((∀ p ∈ kws, p.1 ≠ ([] : List Char)) → 1 ≤ n) := by
  intro kws
  induction kws with
  | nil => intro rest n st' h; exact absurd h (by simp [trySpecialGo])
  | cons p kws ih =>
    intro rest n st' h
    rcases p with ⟨kw, ty⟩
    rw [trySpecialGo_cons] at h
    by_cases hpre : kw.isPrefixOf rest = true
    · cases hidx : rest[kw.length]? with
      | some c =>
        by_cases hal : isAlnumC c = true
        · simp only [hpre, hidx, hal, if_true] at h
          obtain ⟨h1, h2, h3, h4, h5, h6⟩ := ih rest n st' h
          exact ⟨h1, h2, h3, h4, h5, fun hk => h6 (fun q hq => hk q (by simp [hq]))⟩
        · simp only [hpre, hidx, hal, if_true, if_false, Bool.false_eq_true,
            Option.some_inj] at h
          obtain ⟨h1, h2, h3, h4, h5, h6⟩ := specialTail_spec fm i st kw ty rest
          rw [h] at h1 h2 h3 h4 h5 h6
          exact ⟨h1, h2, h3, h4, h5, fun hk => h6 (hk (kw, ty) (by simp))⟩
      | none =>
        simp only [hpre, hidx, if_true, Option.some_inj] at h
        obtain ⟨h1, h2, h3, h4, h5, h6⟩ := specialTail_spec fm i st kw ty rest
        rw [h] at h1 h2 h3 h4 h5 h6
        exact ⟨h1, h2, h3, h4, h5, fun hk => h6 (hk (kw, ty) (by simp))⟩
    · simp only [hpre] at h
      simp only [Bool.false_eq_true, if_false] at h
      obtain ⟨h1, h2, h3, h4, h5, h6⟩ := ih rest n st' h
      exact ⟨h1, h2, h3, h4, h5, fun hk => h6 (fun q hq => hk q (by simp [hq]))⟩

-- ---------------------------------------------------------------------------
-- Every successful match consumes at least one character.
-- ---------------------------------------------------------------------------

theorem matchUnicode_pos {l : List Char} {v : Int} {n : Nat}
    (h : matchUnicode l = some (v, n)) : 1 ≤ n := by
  simp only [matchUnicode] at h
  repeat' split at h
  all_goals first
    | (rw [Option.some_inj] at h
       first
        | omega
        | (have h2 := congrArg Prod.snd h
           simp only at h2
           omega))
    | simp at h

theorem matchHex_pos {l : List Char} {v n : Nat}
    (h : matchHex l = some (v, n)) : 1 ≤ n := by
  simp only [matchHex] at h
  repeat' split at h
  all_goals first
    | (rw [Option.some_inj] at h
       first
        | omega
        | (have h2 := congrArg Prod.snd h
           simp only at h2
           omega))
    | simp at h

theorem matchKwNum_pos {kw l : List Char} {v n : Nat}
    (h : matchKwNum kw l = some (v, n)) : 1 ≤ n := by
  simp only [matchKwNum] at h
  repeat' split at h
  all_goals first
    | (rw [Option.some_inj] at h
       first
        | omega
        | (have h2 := congrArg Prod.snd h
           simp only at h2
           omega))
    | simp at h

theorem matchKwBare_pos {kw l : List Char} {n : Nat}
    (h : matchKwBare kw l = some n) : 1 ≤ n := by
  simp only [matchKwBare] at h
  repeat' split at h
  all_goals first
    | (rw [Option.some_inj] at h
       first
        | omega
        | (have h2 := congrArg Prod.snd h
           simp only at h2
           omega))
    | simp at h

theorem matchControlWord_pos {l : List Char} {n : Nat}
    (h : matchControlWord l = some n) : 1 ≤ n := by
  simp only [matchControlWord] at h
  repeat' split at h
  all_goals first
    | (rw [Option.some_inj] at h
       first
        | omega
        | (have h2 := congrArg Prod.snd h
           simp only at h2
           omega))
    | simp at h

theorem matchDirctx_pos {l : List Char} {d : Dir} {n : Nat}
    (h : matchDirctx l = some (d, n)) : 1 ≤ n := by
  unfold matchDirctx at h
  repeat' split at h
  all_goals first
    | (cases h
       exact matchKwBare_pos (by assumption))
    | simp at h

theorem matchCharset_pos {l : List Char} {c : Charset} {n : Nat}
    (h : matchCharset l = some (c, n)) : 1 ≤ n := by
  unfold matchCharset at h
  repeat' split at h
  all_goals first
    | (cases h
       exact matchKwBare_pos (by assumption))
    | simp at h

theorem matchEscFmt_pos {l : List Char} {a : EscAct} {n : Nat}
    (h : matchEscFmt l = some (a, n)) : 1 ≤ n := by
  unfold matchEscFmt at h
  repeat' split at h
  all_goals first
    | (cases h
       first
        | exact matchDirctx_pos (by assumption)
        | exact matchCharset_pos (by assumption)
        | exact matchKwNum_pos (by assumption))
    | simp at h

theorem trySkipSection_some {rest : List Char} {n : Nat}
    (h : trySkipSection rest = some n) : 1 ≤ n ∧ rest ≠ [] := by
  unfold trySkipSection at h
  cases hf : skipSections.find? (fun s => s.isPrefixOf rest) with
  | none => rw [hf] at h; exact absurd h (by simp)
  | some s =>
    rw [hf] at h
    rw [Option.map_some'] at h
    rw [Option.some_inj] at h
    have hmem := List.mem_of_find?_eq_some hf
    have hpre : s.isPrefixOf rest = true := by
      have h0 := List.find?_some hf
      simpa using h0
    have hs : 1 ≤ s.length := by
      have hne : s ≠ [] := by
        revert hmem
        simp only [skipSections, List.mem_cons, List.not_mem_nil, or_false]
        rintro (rfl | rfl | rfl | rfl | rfl | rfl | rfl | rfl | rfl | rfl |
          rfl | rfl) <;> simp
      cases s with
      | nil => exact absurd rfl hne
      | cons a as => simp
    constructor
    · omega
    · intro hrest
      subst hrest
      rw [List.isPrefixOf_iff_prefix] at hpre
      have hnil : s = [] := List.prefix_nil.mp hpre
      rw [hnil] at hs
      simp at hs

-- ---------------------------------------------------------------------------
-- Characterisation of one backslash step and of one whole scan step.
-- ---------------------------------------------------------------------------

theorem stepStreamsOk_of_eq {i n : Nat} {st st' : St}
    (h : st'.streams = st.streams) : stepStreamsOk i n st st' := by
  refine ⟨[], by simp [h], ?_, List.Pairwise.nil⟩
  intro e he
  exact absurd he (List.not_mem_nil e)

theorem stepStreamsOk_of_single {i n : Nat} {st st' : St}
    (hh : ∃ ex, st'.streams = st.streams ++ ex ∧
      (ex = [] ∨ ∃ ev, ex = [ev] ∧ ceOf ev = i)) : stepStreamsOk i n st st' := by
  obtain ⟨ex, hex, hsh⟩ := hh
  refine ⟨ex, hex, ?_, ?_⟩
  · rcases hsh with rfl | ⟨ev, rfl, hce⟩
    · intro e he
      exact absurd he (List.not_mem_nil e)
    · intro e he
      rw [List.mem_singleton] at he
      subst he
      omega
  · rcases hsh with rfl | ⟨ev, rfl, _⟩
    · exact List.Pairwise.nil
    · exact List.pairwise_singleton _ _

theorem stepStreamsOk_break {fm : FontMap} {i n : Nat} {st st' : St} {ev : Ev}
    (hst : st'.streams = (flushText fm st i).streams ++ [ev])
    (hce : ceOf ev = i + n) : stepStreamsOk i n st st' := by
  obtain ⟨ex, hex, hsh⟩ := emitRunIf_streams fm st i
  have hfl : (flushText fm st i).streams = (emitRunIf fm st i).streams := rfl
  refine ⟨ex ++ [ev], by rw [hst, hfl, hex, List.append_assoc], ?_, ?_⟩
  · intro e he
    rw [List.mem_append, List.mem_singleton] at he
    rcases he with he | rfl
    · rcases hsh with rfl | ⟨ev2, rfl, hce2⟩
      · exact absurd he (List.not_mem_nil e)
      · rw [List.mem_singleton] at he
        subst he
        omega
    · omega
  · rw [List.pairwise_append]
    refine ⟨?_, List.pairwise_singleton _ _, ?_⟩
    · rcases hsh with rfl | ⟨ev2, rfl, _⟩
      · exact List.Pairwise.nil
      · exact List.pairwise_singleton _ _
    · intro a ha b hb
      rw [List.mem_singleton] at hb
      subst hb
      rcases hsh with rfl | ⟨ev2, rfl, hce2⟩
      · exact absurd ha (List.not_mem_nil a)
      · rw [List.mem_singleton] at ha
        subst ha
        omega

theorem escFmtLoop_streams_shape (fm : FontMap) (fp fuel : Nat) (l : List Char)
    (st : St) :
    ∃ ex, (escFmtLoop fm fp fuel l st false).2.1.streams = st.streams ++ ex ∧
      (ex = [] ∨ ∃ ev, ex = [ev] ∧ ceOf ev = fp) := by
  obtain ⟨ex, hex, hsh⟩ := escFmtLoop_streams fm fp fuel l st false
  refine ⟨ex, hex, ?_⟩
  rcases hsh with h | ⟨_, hv⟩
  · exact Or.inl h
  · exact Or.inr hv

theorem backslashStep_spec (fm : FontMap) (rest : List Char) (i : Nat) (st : St) :
    1 ≤ (backslashStep fm rest i st).1 ∧
    (backslashStep fm rest i st).2.stack = st.stack ∧
    stepStreamsOk i (backslashStep fm rest i st).1 st
      (backslashStep fm rest i st).2 := by
  unfold backslashStep
  repeat' split
  all_goals first
    | exact ⟨by omega, rfl, stepStreamsOk_of_eq rfl⟩
    | exact ⟨matchUnicode_pos (by assumption), rfl, stepStreamsOk_of_eq rfl⟩
    | exact ⟨matchHex_pos (by assumption), rfl, stepStreamsOk_of_eq rfl⟩
    | exact ⟨matchControlWord_pos (by assumption), rfl, stepStreamsOk_of_eq rfl⟩
    | (rcases hb : escFmtLoop fm i (rest.drop 2).length (rest.drop 2) st false
        with ⟨n1, st1, saw1⟩
       have h1 := escFmtLoop_stack fm i (rest.drop 2).length (rest.drop 2) st false
       have h2 := escFmtLoop_streams_shape fm i (rest.drop 2).length (rest.drop 2) st
       rw [hb] at h1 h2
       simp only [hb]
       cases saw1 <;>
         exact ⟨by omega, by simpa using h1,
           stepStreamsOk_of_single (by simpa using h2)⟩)
    | exact ⟨matchDirctx_pos (by assumption), emitRunIf_stack fm st i,
        stepStreamsOk_of_single (emitRunIf_streams fm st i)⟩
    | exact ⟨matchCharset_pos (by assumption), emitRunIf_stack fm st i,
        stepStreamsOk_of_single (emitRunIf_streams fm st i)⟩
    | exact ⟨matchKwNum_pos (by assumption), emitRunIf_stack fm st i,
        stepStreamsOk_of_single (emitRunIf_streams fm st i)⟩
    | exact ⟨matchKwBare_pos (by assumption), emitRunIf_stack fm st i,
        stepStreamsOk_break rfl rfl⟩

theorem stepFn_spec (fm : FontMap) (rest : List Char) (i : Nat) (st : St) :
    1 ≤ (stepFn fm rest i st).1 ∧
    stepStreamsOk i (stepFn fm rest i st).1 st (stepFn fm rest i st).2 ∧
    stackShape st (stepFn fm rest i st).2 := by
  unfold stepFn
  cases h1 : trySkipSection rest with
  | some n =>
    exact ⟨(trySkipSection_some h1).1, stepStreamsOk_of_eq rfl, Or.inl rfl⟩
  | none =>
    cases rest with
    | nil => exact ⟨Nat.le_refl 1, stepStreamsOk_of_eq rfl, Or.inl rfl⟩
    | cons c cs =>
      simp only
      by_cases hc : c = '\\'
      · rw [if_pos hc]
        cases h2 : trySpecial fm (c :: cs) i st with
        | some r =>
          rcases r with ⟨n, st'⟩
          show 1 ≤ n ∧ stepStreamsOk i n st st' ∧ stackShape st st'
          obtain ⟨hstk, hfmt, hbuf, hcstart, ⟨ex, hex, hsh⟩, hpos⟩ :=
            trySpecialGo_spec fm i st specialKeywords (c :: cs) n st' h2
          refine ⟨hpos (by decide), ⟨ex, hex, ?_, ?_⟩, Or.inl hstk⟩
          · intro e he
            rcases hsh with rfl | ⟨ev, rfl, hce⟩
            · exact absurd he (List.not_mem_nil e)
            · rw [List.mem_singleton] at he
              subst he
              omega
          · rcases hsh with rfl | ⟨ev, rfl, _⟩
            · exact List.Pairwise.nil
            · exact List.pairwise_singleton _ _
        | none =>
          obtain ⟨hp, hs, ho⟩ := backslashStep_spec fm (c :: cs) i st
          exact ⟨hp, ho, Or.inl hs⟩
      · rw [if_neg hc]
        by_cases hig : isIgnoreGroup (c :: cs) = true
        · rw [if_pos hig]
          exact ⟨by omega, stepStreamsOk_of_eq rfl, Or.inl rfl⟩
        · rw [if_neg hig]
          by_cases hoc : c = '{'
          · rw [if_pos hoc]
            exact ⟨by omega, stepStreamsOk_of_eq rfl, Or.inr (Or.inl ⟨rfl, rfl⟩)⟩
          · rw [if_neg hoc]
            by_cases hcc : c = '}'
            · rw [if_pos hcc]
              simp only [closeBrace]
              cases hstk : (emitRunIf fm st i).stack with
              | nil =>
                refine ⟨Nat.le_refl 1,
                  stepStreamsOk_of_single (emitRunIf_streams fm st i), Or.inl ?_⟩
                show ([] : List Fmt) = st.stack
                have hq := emitRunIf_stack fm st i
                rw [hstk] at hq
                exact hq
              | cons f t =>
                refine ⟨Nat.le_refl 1,
                  stepStreamsOk_of_single (emitRunIf_streams fm st i),
                  Or.inr (Or.inr ⟨t, ?_, rfl⟩)⟩
                show st.stack = f :: t
                rw [← emitRunIf_stack fm st i, hstk]
            · rw [if_neg hcc]
              exact ⟨by omega, stepStreamsOk_of_eq rfl, Or.inl rfl⟩

theorem scanCountGo_le (fm : FontMap) :
    ∀ (fuel : Nat) (rest : List Char) (i : Nat) (st : St),
      scanCountGo fm fuel rest i st ≤ rest.length := by
  intro fuel
  induction fuel with
  | zero => intro rest i st; exact Nat.zero_le _
  | succ fuel ih =>
    intro rest i st
    unfold scanCountGo
    by_cases hr : rest.isEmpty = true
    · rw [if_pos hr]
      exact Nat.zero_le _
    · rw [if_neg hr]
      show 1 + scanCountGo fm fuel (rest.drop (stepFn fm rest i st).1)
          (i + (stepFn fm rest i st).1) (stepFn fm rest i st).2 ≤ rest.length
      have hpos := (stepFn_spec fm rest i st).1
      have hle := ih (rest.drop (stepFn fm rest i st).1)
        (i + (stepFn fm rest i st).1) (stepFn fm rest i st).2
      have hlen : (rest.drop (stepFn fm rest i st).1).length =
          rest.length - (stepFn fm rest i st).1 := List.length_drop _ _
      have hrlen : 1 ≤ rest.length := by
        cases rest with
        | nil => simp at hr
        | cons a as => simp
      omega

theorem emitRunIf_pairwise (fm : FontMap) (st : St) (i : Nat)
    (hb : ∀ e ∈ st.streams, ceOf e ≤ i)
    (hp : List.Pairwise (fun a b => ceOf a ≤ ceOf b) st.streams) :
    List.Pairwise (fun a b => ceOf a ≤ ceOf b) (emitRunIf fm st i).streams := by
  obtain ⟨ex, hex, hsh⟩ := emitRunIf_streams fm st i
  rw [hex, List.pairwise_append]
  refine ⟨hp, ?_, ?_⟩
  · rcases hsh with rfl | ⟨ev, rfl, _⟩
    · exact List.Pairwise.nil
    · exact List.pairwise_singleton _ _
  · intro a ha b hbm
    rcases hsh with rfl | ⟨ev, rfl, hce⟩
    · exact absurd hbm (List.not_mem_nil b)
    · rw [List.mem_singleton] at hbm
      subst hbm
      rw [hce]
      exact hb a ha

theorem scanGo_pairwise (fm : FontMap) :
    ∀ (fuel : Nat) (rest : List Char) (i : Nat) (st : St),
      (∀ e ∈ st.streams, ceOf e ≤ i) →
      List.Pairwise (fun a b => ceOf a ≤ ceOf b) st.streams →
      List.Pairwise (fun a b => ceOf a ≤ ceOf b)
        (scanGo fm fuel rest i st).streams := by
  intro fuel
  induction fuel with
  | zero => intro rest i st hb hp; exact emitRunIf_pairwise fm st i hb hp
  | succ fuel ih =>
    intro rest i st hb hp
    unfold scanGo
    by_cases hr : rest.isEmpty = true
    · rw [if_pos hr]
      exact emitRunIf_pairwise fm st i hb hp
    · rw [if_neg hr]
      show List.Pairwise _ (scanGo fm fuel (rest.drop (stepFn fm rest i st).1)
        (i + (stepFn fm rest i st).1) (stepFn fm rest i st).2).streams
      obtain ⟨_, ⟨ex, hex, hbnd, hpx⟩, _⟩ := stepFn_spec fm rest i st
      apply ih
      · intro e he
        rw [hex, List.mem_append] at he
        rcases he with he | he
        · have := hb e he
          omega
        · exact (hbnd e he).2
      · rw [hex, List.pairwise_append]
        refine ⟨hp, hpx, ?_⟩
        intro a ha b hbm
        have h1 := hb a ha
        have h2 := (hbnd b hbm).1
        omega

theorem stepRel_shape {fm : FontMap} {c c' : Config} (h : stepRel fm c c') :
    stackShape c.st c'.st := by
  rcases h with ⟨hne, rfl⟩
  exact (stepFn_spec fm c.rest c.i c.st).2.2

theorem dropToDepth_cons {k : Nat} {f : Fmt} {s : List Fmt} (h : k ≤ s.length) :
    dropToDepth k (f :: s) = dropToDepth k s := by
  unfold dropToDepth
  have h1 : (f :: s).length - k = (s.length - k) + 1 := by
    simp only [List.length_cons]
    omega
  rw [h1, List.drop_succ_cons]

theorem dropToDepth_full {k : Nat} {s : List Fmt} (h : s.length = k) :
    dropToDepth k s = s := by
  unfold dropToDepth
  rw [h]
  simp

theorem stepsDeep_bottom (fm : FontMap) (n : Nat) :
    ∀ {a b : Config}, StepsDeep fm n a b → n + 1 ≤ a.st.stack.length →
      n + 1 ≤ b.st.stack.length →
      dropToDepth (n + 1) b.st.stack = dropToDepth (n + 1) a.st.stack := by
  intro a b h
  induction h with
  | refl => intro _ _; rfl
  | tail hab hdeep hstep ih =>
    rename_i b2 c2
    intro ha hc
    have hb : n + 1 ≤ _ := hdeep
    have hab2 := ih ha hb
    rcases stepRel_shape hstep with heq | ⟨hpush, _⟩ | ⟨t, hpop1, hpop2⟩
    · rw [heq, hab2]
    · rw [hpush, dropToDepth_cons hb, hab2]
    · rw [hpop2]
      rw [hpop2] at hc
      have h3 : dropToDepth (n + 1) (fmtOf c2.st :: t) = dropToDepth (n + 1) t :=
        dropToDepth_cons hc
      rw [← h3, ← hpop1, hab2]

-- ---------------------------------------------------------------------------
-- Claims.
-- ---------------------------------------------------------------------------

/-- C1: for the document `(fonttbl (f0 fnil Body;))(f0 fs20 Hello par World)`
written with braces and backslashes, parse_file emits exactly, in order, a
TextRun "Hello" with font id 0, font name "Body" and size 10 points (the \fs
argument 20 divided by 2 with integer division), a ParagraphBreak, and a
TextRun "World" with the same attribution. -/
theorem c1_end_to_end :
    parseFile ("\x7b\\fonttbl\x7b\\f0\\fnil Body;\x7d\x7d\x7b\\f0\\fs20 Hello\\par World\x7d").data =
      [Ev.run [72, 101, 108, 108, 111] 0 ("Body").data 10 36 41,
       Ev.parBrk 41 46,
       Ev.run [87, 111, 114, 108, 100] 0 ("Body").data 10 46 51] := by
  rfl

/-- C9: escape decoding is exact: a backslash-quote-41 escape appends the
single character A (code 65, two hex digits decoded as one Latin-1 byte), a
backslash-u9 escape appends the tab character U+0009, and backslash-u-1-question
appends code point 0xFFFF (the negative 16-bit value -1 plus 0x10000) with the
question-mark fallback consumed. -/
theorem c9_escape_roundtrip :
    parseFile ("\\'41").data = [Ev.run [65] 0 [] 12 0 4] ∧
    parseFile ("\\u9").data = [Ev.run [9] 0 [] 12 0 3] ∧
    parseFile ("\\u-1?").data = [Ev.run [65535] 0 [] 12 0 5] := by
  exact ⟨rfl, rfl, rfl⟩

set_option maxHeartbeats 1600000 in
/-- C3: selecting a font with the base-font or script-font control word writes
only the effective-font-map slot of the current (directionality, charset)
pair, the active font id is always read from the slot of the current pair, and
in particular after selecting font 5 in (ltrch, loch) and then switching only
the charset to hich, the emitted run is attributed to whatever id the
(ltrch, hich) slot held, not to 5: with the map in its initial state the run
carries font id 0, and with 7 pre-written in that slot it carries 7. -/
theorem c3_slot_independence :
    (∀ (st : St) (v : Nat) (d : Dir) (c : Charset),
      getEff (selectFont st v).eff d c =
        if d = st.dirctx ∧ c = st.charset then v else getEff st.eff d c) ∧
    (∀ st : St, getFid st = getEff st.eff st.dirctx st.charset) ∧
    (scanAux [] ("\\f5\\hich x").data 0 initSt).streams =
      [Ev.run [120] 0 [] 12 9 10] ∧
    (scanAux [] ("\\f5\\hich x").data 0
        ⟨24, .loch, .ltrch, ⟨1, 7, 2, 3, 4, 5⟩, [], [], 0, []⟩).streams =
      [Ev.run [120] 7 [] 12 9 10] := by
  refine ⟨?_, fun _ => rfl, rfl, rfl⟩
  intro st v d c
  rcases st with ⟨fs, cs, dir, eff, stk, buf, chs, strs⟩
  cases dir <;> cases cs <;> cases d <;> cases c <;>
    simp [selectFont, setEff, getEff]

/-- C4 counterexample: the claim asserts that every footnote/header/footer/
picture keyword followed by a brace group yields exactly one SpecialBlock
event; but a header group written as open-brace backslash-header matches the
skip_sections prefix list and is skipped with nothing emitted, so this
document with a header keyword followed by a group produces no event at
all. -/
theorem c4_counterexample :
    parseFile ("\x7b\\header\x7bx\x7d\x7d").data = [] := by
  rfl

/-- C5 counterexample: the claim asserts that the fallback token after a
backslash-uN escape is always skipped and contributes nothing to any TextRun;
but the main parser's pattern only consumes an optional literal question mark,
so for backslash-u66 followed by the fallback character x the x is appended to
the run text (code 120 appears after the decoded code point 66). -/
theorem c5_counterexample :
    parseFile ("\\u66x").data = [Ev.run [66, 120] 0 [] 12 0 5] := by
  rfl

/-- C6: the claim (matching the spec's malformed-input tolerance) is that a
closing brace scanned with an empty scope stack never raises and leaves the
formatting state unchanged.  The IE1PD100944 scanner indeed flushes pending
text, leaves the state unchanged and advances; but the IE00EGS1016703
closing-brace branch pops its stack unguarded, so on the same malformed input
it raises IndexError (modelled as none): the code contradicts the documented
intent. -/
theorem c6_code_bug :
    egsCloseBrace [] 0 ⟨[], 0, 24, [], 0, []⟩ = none ∧
    stepFn [] ("\x7d").data 0 initSt = (1, { initSt with charStart := 1 }) ∧
    stepFn [] ("\x7d").data 0 { initSt with buf := [97] } =
      (1, { initSt with charStart := 1,
                        streams := [Ev.run [97] 0 [] 12 0 0] }) := by
  exact ⟨rfl, rfl, rfl⟩

/-- C2: for a well-balanced scan, the formatting state (font size, charset
context, directionality context and the full effective-font map, together the
Fmt snapshot) immediately after the scan consumes the closing brace matching
an opening brace equals the state immediately before that opening brace was
consumed: the step at the opening brace pushes a snapshot of all four fields,
every intermediate step leaves the frames below the top of the group intact,
and the first step that brings the stack back to its original depth (the
matching closing brace, which also flushes any pending run under the pre-pop
state) restores the snapshot verbatim. -/
theorem c2_scope_restoration (fm : FontMap) (c0 c1 c2 c3 : Config)
    (hpush : stepRel fm c0 c1)
    (hstk : c1.st.stack = fmtOf c0.st :: c0.st.stack)
    (hdeep : StepsDeep fm c0.st.stack.length c1 c2)
    (hopen : c0.st.stack.length < c2.st.stack.length)
    (hpop : stepRel fm c2 c3)
    (hlen : c3.st.stack.length = c0.st.stack.length) :
    fmtOf c3.st = fmtOf c0.st := by
  rcases stepRel_shape hpop with heq | ⟨hpush2, _⟩ | ⟨t, hpc1, hpc2⟩
  · exfalso
    rw [heq] at hlen
    omega
  · exfalso
    have hL : c3.st.stack.length = c2.st.stack.length + 1 := by
      rw [hpush2]
      simp
    omega
  · have ht : t.length = c0.st.stack.length := by
      rw [hpc2] at hlen
      exact hlen
    have hc2len : c2.st.stack.length = c0.st.stack.length + 1 := by
      rw [hpc1]
      simp [ht]
    have hc1len : c1.st.stack.length = c0.st.stack.length + 1 := by
      rw [hstk]
      simp
    have hb := stepsDeep_bottom fm c0.st.stack.length hdeep
      (by omega) (by omega)
    rw [dropToDepth_full hc2len, dropToDepth_full hc1len] at hb
    rw [hpc1, hstk] at hb
    injection hb with h1 h2

/-- C2 witness: on the document open-brace a close-brace, the push step, one
literal step staying inside the group, and the pop step restore the initial
formatting state. -/
theorem c2_scope_restoration_witness :
    fmtOf (doStep [] (doStep [] (doStep []
      (⟨("\x7ba\x7d").data, 0, initSt⟩ : Config)))).st = fmtOf initSt := by
  refine c2_scope_restoration [] ⟨("\x7ba\x7d").data, 0, initSt⟩
    (doStep [] ⟨("\x7ba\x7d").data, 0, initSt⟩)
    (doStep [] (doStep [] ⟨("\x7ba\x7d").data, 0, initSt⟩))
    (doStep [] (doStep [] (doStep [] ⟨("\x7ba\x7d").data, 0, initSt⟩)))
    ⟨by decide, rfl⟩ (by decide)
    (StepsDeep.tail (StepsDeep.refl _) (by decide) ⟨by decide, rfl⟩)
    (by decide) ⟨by decide, rfl⟩ (by decide)

/-- C7: for every input document, the char_end offsets of the events emitted
by parse_file (text runs, paragraph/line/cell/row breaks and special blocks)
are non-decreasing in emission order. -/
theorem c7_offset_monotone (data : List Char) :
    List.Pairwise (fun a b => ceOf a ≤ ceOf b) (parseFile data) := by
  unfold parseFile scanAux
  apply scanGo_pairwise
  · intro e he
    exact absurd he (List.not_mem_nil e)
  · exact List.Pairwise.nil

/-- C10: parse_file terminates on every finite input: every iteration of the
scan loop consumes at least one character (so the scan index strictly
increases), and consequently the loop runs at most length-of-input
iterations. -/
theorem c10_termination :
    (∀ (fm : FontMap) (rest : List Char) (i : Nat) (st : St),
      1 ≤ (stepFn fm rest i st).1) ∧
    (∀ (fm : FontMap) (rest : List Char) (i : Nat) (st : St),
      scanCount fm rest i st ≤ rest.length) :=
  ⟨fun fm rest i st => (stepFn_spec fm rest i st).1,
   fun fm rest i st => scanCountGo_le fm rest.length rest i st⟩

theorem isIgnoreGroup_inv {rest : List Char} (h : isIgnoreGroup rest = true) :
    ∃ t, rest = '{' :: '\\' :: '*' :: t := by
  unfold isIgnoreGroup at h
  split at h
  · exact ⟨_, rfl⟩
  · exact absurd h (by simp)

/-- C8: spans recognised as skipped metadata destinations (font table, color
table, stylesheet, document info, list tables, generator comment, rsid and
related tables, header/footer groups) and ignorable-extension groups opened
by brace-backslash-star are skipped by brace counting with nothing emitted:
the step consumes the whole span and returns the state completely unchanged
(no event appended, no character added to the pending run buffer), and the
scan continues after the span from the same state, so no character inside the
span ever appears in the text of any emitted TextRun. -/
theorem c8_destination_isolation :
    (∀ (fm : FontMap) (fuel : Nat) (rest : List Char) (i : Nat) (st : St)
      (n : Nat), trySkipSection rest = some n →
      stepFn fm rest i st = (n, st) ∧
      scanGo fm (fuel + 1) rest i st = scanGo fm fuel (rest.drop n) (i + n) st) ∧
    (∀ (fm : FontMap) (fuel : Nat) (rest : List Char) (i : Nat) (st : St),
      trySkipSection rest = none → isIgnoreGroup rest = true →
      stepFn fm rest i st = (3 + skipGroup (rest.drop 3) 1, st) ∧
      scanGo fm (fuel + 1) rest i st =
        scanGo fm fuel (rest.drop (3 + skipGroup (rest.drop 3) 1))
          (i + (3 + skipGroup (rest.drop 3) 1)) st) := by
  constructor
  · intro fm fuel rest i st n h
    have hne : rest ≠ [] := (trySkipSection_some h).2
    have hie : rest.isEmpty = false := by
      cases rest with
      | nil => exact absurd rfl hne
      | cons a as => rfl
    have hstep : stepFn fm rest i st = (n, st) := by
      unfold stepFn
      rw [h]
    refine ⟨hstep, ?_⟩
    show (if rest.isEmpty = true then emitRunIf fm st i
      else scanGo fm fuel (rest.drop (stepFn fm rest i st).1)
        (i + (stepFn fm rest i st).1) (stepFn fm rest i st).2) =
      scanGo fm fuel (rest.drop n) (i + n) st
    rw [hie]
    simp only [Bool.false_eq_true, if_false, hstep]
  · intro fm fuel rest i st h hig
    obtain ⟨t, rfl⟩ := isIgnoreGroup_inv hig
    have hstep : stepFn fm ('{' :: '\\' :: '*' :: t) i st =
        (3 + skipGroup (('{' :: '\\' :: '*' :: t).drop 3) 1, st) := by
      unfold stepFn
      rw [h]
      simp [isIgnoreGroup]
    refine ⟨hstep, ?_⟩
    show (if ('{' :: '\\' :: '*' :: t).isEmpty = true then emitRunIf fm st i
      else scanGo fm fuel
        (('{' :: '\\' :: '*' :: t).drop
          (stepFn fm ('{' :: '\\' :: '*' :: t) i st).1)
        (i + (stepFn fm ('{' :: '\\' :: '*' :: t) i st).1)
        (stepFn fm ('{' :: '\\' :: '*' :: t) i st).2) =
      scanGo fm fuel
        (('{' :: '\\' :: '*' :: t).drop
          (3 + skipGroup (('{' :: '\\' :: '*' :: t).drop 3) 1))
        (i + (3 + skipGroup (('{' :: '\\' :: '*' :: t).drop 3) 1)) st
    simp only [List.isEmpty_cons, Bool.false_eq_true, if_false, hstep]

/-- C8 witness: a font-table destination and an ignorable-extension group at
the head of the input are consumed whole with the state unchanged. -/
theorem c8_destination_isolation_witness :
    (stepFn [] ("\x7b\\fonttbl x\x7d!").data 0 initSt = (12, initSt) ∧
     scanGo [] 13 ("\x7b\\fonttbl x\x7d!").data 0 initSt =
       scanGo [] 12 (("\x7b\\fonttbl x\x7d!").data.drop 12) 12 initSt) ∧
    (stepFn [] ("\x7b\\*ab\x7d").data 0 initSt = (6, initSt) ∧
     scanGo [] 7 ("\x7b\\*ab\x7d").data 0 initSt =
       scanGo [] 6 (("\x7b\\*ab\x7d").data.drop 6) 6 initSt) := by
  constructor
  · exact c8_destination_isolation.1 [] 12 ("\x7b\\fonttbl x\x7d!").data 0
      initSt 12 (by decide)
  · exact c8_destination_isolation.2 [] 6 ("\x7b\\*ab\x7d").data 0 initSt
      (by decide) (by decide)

theorem takeWhile_append_stop (p : Char → Bool) (l1 : List Char) (c : Char)
    (l2 : List Char) (h1 : ∀ x ∈ l1, p x = true) (hc : p c = false) :
    (l1 ++ c :: l2).takeWhile p = l1 := by
  induction l1 with
  | nil => simp [List.takeWhile_cons, hc]
  | cons a as ih =>
    have ha : p a = true := h1 a (List.mem_cons_self a as)
    simp only [List.cons_append, List.takeWhile_cons, ha, if_true]
    rw [ih (fun x hx => h1 x (List.mem_cons_of_mem a hx))]

theorem getElem?_append_len {α : Type} (l1 l2 : List α) (k : Nat) :
    (l1 ++ l2)[l1.length + k]? = l2[k]? := by
  induction l1 with
  | nil => simp
  | cons a as ih => simpa [Nat.succ_add] using ih

theorem drop_append_len {α : Type} (l1 l2 : List α) (k : Nat) :
    (l1 ++ l2).drop (l1.length + k) = l2.drop k := by
  induction l1 with
  | nil => simp
  | cons a as ih => simpa [Nat.succ_add] using ih

theorem specialGo_miss (fm : FontMap) (i : Nat) (st : St) (kw : List Char)
    (ty : SKind) (kws : List (List Char × SKind)) (rest : List Char)
    (h : kw.isPrefixOf rest = false) :
    trySpecialGo fm i st ((kw, ty) :: kws) rest = trySpecialGo fm i st kws rest := by
  rw [trySpecialGo_cons]
  simp [h]

theorem specialGo_hit (fm : FontMap) (i : Nat) (st : St) (kw : List Char)
    (ty : SKind) (kws : List (List Char × SKind)) (wsl tail : List Char)
    (hws : ∀ c ∈ wsl, isWs4 c = true) :
    trySpecialGo fm i st ((kw, ty) :: kws) (kw ++ wsl ++ '{' :: tail) =
      some (specialTail fm i st kw ty (kw ++ wsl ++ '{' :: tail)) := by
  simp only [List.append_assoc]
  rw [trySpecialGo_cons]
  have hpre : kw.isPrefixOf (kw ++ (wsl ++ '{' :: tail)) = true :=
    List.isPrefixOf_iff_prefix.mpr (List.prefix_append _ _)
  rw [hpre, if_pos rfl]
  have hidx : (kw ++ (wsl ++ '{' :: tail))[kw.length]? = (wsl ++ '{' :: tail)[0]? := by
    have h1 := getElem?_append_len kw (wsl ++ '{' :: tail) 0
    simpa using h1
  cases wsl with
  | nil =>
    rw [show (kw ++ ([] ++ '{' :: tail))[kw.length]? = some '{' from by
      simpa using hidx]
    have h7 : isAlnumC '{' = false := by decide
    simp [h7]
  | cons w ws =>
    have hw : isWs4 w = true := hws w (List.mem_cons_self w ws)
    have hwal : isAlnumC w = false := by
      have hw2 : w = ' ' ∨ w = '\n' ∨ w = '\r' ∨ w = '\t' := by
        simpa [isWs4] using hw
      rcases hw2 with rfl | rfl | rfl | rfl <;> decide
    rw [show (kw ++ ((w :: ws) ++ '{' :: tail))[kw.length]? = some w from by
      simpa using hidx]
    simp [hwal]

theorem specialTail_group (fm : FontMap) (i : Nat) (st : St) (kw : List Char)
    (ty : SKind) (wsl tail : List Char) (hws : ∀ c ∈ wsl, isWs4 c = true) :
    specialTail fm i st kw ty (kw ++ wsl ++ '{' :: tail) =
      (kw.length + wsl.length + 1 + skipGroup tail 1,
       { st with streams := st.streams ++
          [Ev.special ty ((tail.take (skipGroup tail 1 - 1)).map Char.toNat)
            (getFid st) (lookupFont fm (getFid st)) (st.fontSize / 2)
            (i + (kw.length + wsl.length))
            (i + (kw.length + wsl.length) + 1 + skipGroup tail 1)] }) := by
  simp only [List.append_assoc]
  have hd : (kw ++ (wsl ++ '{' :: tail)).drop kw.length = wsl ++ '{' :: tail :=
    List.drop_left _ _
  have htw : (wsl ++ '{' :: tail).takeWhile isWs4 = wsl :=
    takeWhile_append_stop _ _ _ _ hws (by decide)
  have hidx : (kw ++ (wsl ++ '{' :: tail))[kw.length + wsl.length]? = some '{' := by
    rw [getElem?_append_len kw (wsl ++ '{' :: tail) wsl.length]
    have h2 := getElem?_append_len wsl ('{' :: tail) 0
    simpa using h2
  have hd2 : (kw ++ (wsl ++ '{' :: tail)).drop (kw.length + wsl.length + 1) =
      tail := by
    have h1 := drop_append_len kw (wsl ++ '{' :: tail) (wsl.length + 1)
    rw [← Nat.add_assoc] at h1
    rw [h1]
    have h2 := drop_append_len wsl ('{' :: tail) 1
    rw [h2]
    rfl
  simp only [specialTail, hd, htw, hidx, hd2, if_pos]

theorem stepFn_special {fm : FontMap} {rest : List Char} {i : Nat} {st : St}
    {n : Nat} {st' : St} (hskip : trySkipSection rest = none)
    (hhead : rest.head? = some '\\')
    (hts : trySpecial fm rest i st = some (n, st')) :
    stepFn fm rest i st = (n, st') := by
  unfold stepFn
  rw [hskip]
  cases rest with
  | nil => simp at hhead
  | cons c cs =>
    simp only [List.head?_cons, Option.some_inj] at hhead
    subst hhead
    simp [hts]

/-- C4 (amended): for a footnote/header/footer/picture keyword occurrence
that the scanner actually reaches, i.e. one that is not inside a skipped
destination and does not itself match a skip-section prefix (an immediately
preceding opening brace makes backslash-header or backslash-footer part of
the skip_sections list and the whole group is skipped with nothing emitted),
a keyword followed by optional whitespace and a brace group makes the step
emit exactly one SpecialBlock event carrying the group's raw inner text and
the font id/name and size active at that point, leave the pending run buffer
and all other state untouched, and jump past the group, so the inner text is
never merged into any TextRun. -/
theorem c4_amended_special_blocks (fm : FontMap) (i : Nat) (st : St)
    (kw : List Char) (ty : SKind) (wsl tail : List Char)
    (hmem : (kw, ty) ∈ specialKeywords)
    (hws : ∀ c ∈ wsl, isWs4 c = true)
    (hskip : trySkipSection (kw ++ wsl ++ '{' :: tail) = none) :
    stepFn fm (kw ++ wsl ++ '{' :: tail) i st =
      (kw.length + wsl.length + 1 + skipGroup tail 1,
       { st with streams := st.streams ++
          [Ev.special ty ((tail.take (skipGroup tail 1 - 1)).map Char.toNat)
            (getFid st) (lookupFont fm (getFid st)) (st.fontSize / 2)
            (i + (kw.length + wsl.length))
            (i + (kw.length + wsl.length) + 1 + skipGroup tail 1)] }) := by
  simp only [specialKeywords, List.mem_cons, List.not_mem_nil, or_false,
    Prod.mk.injEq] at hmem
  rcases hmem with ⟨rfl, rfl⟩ | ⟨rfl, rfl⟩ | ⟨rfl, rfl⟩ | ⟨rfl, rfl⟩
  · refine stepFn_special hskip rfl ?_
    unfold trySpecial
    simp only [specialKeywords]
    rw [specialGo_hit fm i st _ _ _ wsl tail hws,
      specialTail_group fm i st _ _ wsl tail hws]
  · refine stepFn_special hskip rfl ?_
    unfold trySpecial
    simp only [specialKeywords]
    rw [specialGo_miss fm i st _ _ _ _ (by simp [List.isPrefixOf]),
      specialGo_hit fm i st _ _ _ wsl tail hws,
      specialTail_group fm i st _ _ wsl tail hws]
  · refine stepFn_special hskip rfl ?_
    unfold trySpecial
    simp only [specialKeywords]
    rw [specialGo_miss fm i st _ _ _ _ (by simp [List.isPrefixOf]),
      specialGo_miss fm i st _ _ _ _ (by simp [List.isPrefixOf]),
      specialGo_hit fm i st _ _ _ wsl tail hws,
      specialTail_group fm i st _ _ wsl tail hws]
  · refine stepFn_special hskip rfl ?_
    unfold trySpecial
    simp only [specialKeywords]
    rw [specialGo_miss fm i st _ _ _ _ (by simp [List.isPrefixOf]),
      specialGo_miss fm i st _ _ _ _ (by simp [List.isPrefixOf]),
      specialGo_miss fm i st _ _ _ _ (by simp [List.isPrefixOf]),
      specialGo_hit fm i st _ _ _ wsl tail hws,
      specialTail_group fm i st _ _ wsl tail hws]

/-- C4 witness: a picture keyword followed by one space and a one-character
group emits exactly one SpecialBlock and jumps past the group. -/
theorem c4_amended_witness :
    stepFn [] (['\\', 'p', 'i', 'c', 't'] ++ [' '] ++ '{' :: ['Z', '}']) 0
        initSt =
      (9, { initSt with streams := [Ev.special .pict [90] 0 [] 12 6 9] }) := by
  have h := c4_amended_special_blocks [] 0 initSt ['\\', 'p', 'i', 'c', 't']
    .pict [' '] ['Z', '}'] (by decide) (by decide) (by decide)
  exact h

theorem isPrefixOf_head_brace {s t : List Char} (h : s.head? = some '{') :
    s.isPrefixOf ('\\' :: t) = false := by
  cases s with
  | nil => simp at h
  | cons a as =>
    simp only [List.head?_cons, Option.some_inj] at h
    subst h
    rfl

theorem trySkipSection_backslash (t : List Char) :
    trySkipSection ('\\' :: t) = none := by
  unfold trySkipSection
  have hall : ∀ s ∈ skipSections, s.head? = some '{' := by decide
  have h : skipSections.find? (fun s => s.isPrefixOf ('\\' :: t)) = none := by
    rw [List.find?_eq_none]
    intro s hs
    rw [isPrefixOf_head_brace (hall s hs)]
    simp
  rw [h]
  rfl

theorem trySpecial_u (fm : FontMap) (i : Nat) (st : St) (t : List Char) :
    trySpecial fm ('\\' :: 'u' :: t) i st = none := by
  unfold trySpecial
  simp only [specialKeywords]
  rw [specialGo_miss fm i st _ _ _ _ (by simp [List.isPrefixOf]),
    specialGo_miss fm i st _ _ _ _ (by simp [List.isPrefixOf]),
    specialGo_miss fm i st _ _ _ _ (by simp [List.isPrefixOf]),
    specialGo_miss fm i st _ _ _ _ (by simp [List.isPrefixOf])]
  rfl

/-- C5 (amended): the backslash-uN branch decodes N as a 16-bit signed
quantity (uDecode adds 0x10000 to a negative value, and yields the question
mark for a code point outside chr range), appends exactly the resulting code
point to the pending run, and consumes as fallback only a literal question
mark immediately after the digits: a question-mark fallback is part of the
match and contributes nothing, while any other one-character (or hex-pair)
fallback token is left in the input, so the scan continues at it and it is
processed as ordinary content. -/
theorem c5_amended_fallback :
    (∀ (fm : FontMap) (t : List Char) (i : Nat) (st : St) (v : Int) (n : Nat),
      matchUnicode ('\\' :: 'u' :: t) = some (v, n) →
      stepFn fm ('\\' :: 'u' :: t) i st =
        (n, { st with buf := st.buf ++ [uDecode v] })) ∧
    (∀ (ds r : List Char), ds ≠ [] → (∀ c ∈ ds, isDigitC c = true) →
      matchUnicode ('\\' :: 'u' :: (ds ++ '?' :: r)) =
        some (Int.ofNat (digitsVal ds), 2 + ds.length + 1)) ∧
    (∀ (ds r : List Char) (c : Char), ds ≠ [] → (∀ x ∈ ds, isDigitC x = true) →
      isDigitC c = false → c ≠ '?' →
      matchUnicode ('\\' :: 'u' :: (ds ++ c :: r)) =
        some (Int.ofNat (digitsVal ds), 2 + ds.length)) := by
  refine ⟨?_, ?_, ?_⟩
  · intro fm t i st v n h
    have hsk := trySkipSection_backslash ('u' :: t)
    have hsp := trySpecial_u fm i st t
    unfold stepFn
    simp only [hsk, hsp, if_true]
    unfold backslashStep
    rw [h]
  · intro ds r hne hds
    cases ds with
    | nil => exact absurd rfl hne
    | cons d ds2 =>
      have hd : isDigitC d = true := hds d (List.mem_cons_self _ _)
      have hdm : d ≠ '-' := by
        intro he
        rw [he] at hd
        exact absurd hd (by decide)
      have htw2 : (d :: (ds2 ++ '?' :: r)).takeWhile isDigitC = d :: ds2 :=
        takeWhile_append_stop _ _ _ _ hds (by decide)
      have hdr2 : (d :: (ds2 ++ '?' :: r)).drop (d :: ds2).length = '?' :: r :=
        List.drop_left _ _
      show matchUnicode ('\\' :: 'u' :: d :: (ds2 ++ '?' :: r)) =
        some (Int.ofNat (digitsVal (d :: ds2)), 2 + (d :: ds2).length + 1)
      simp only [matchUnicode, List.head?_cons]
      simp only [show decide (some d = some '-') = false from by simp [hdm],
        Bool.false_eq_true, if_false]
      rw [htw2]
      simp only [List.isEmpty_cons, Bool.false_eq_true, if_false]
      rw [hdr2]
      simp only [List.head?_cons]
      simp

  · intro ds r c hne hds hcd hcq
    cases ds with
    | nil => exact absurd rfl hne
    | cons d ds2 =>
      have hd : isDigitC d = true := hds d (List.mem_cons_self _ _)
      have hdm : d ≠ '-' := by
        intro he
        rw [he] at hd
        exact absurd hd (by decide)
      have htw2 : (d :: (ds2 ++ c :: r)).takeWhile isDigitC = d :: ds2 :=
        takeWhile_append_stop _ _ _ _ hds hcd
      have hdr2 : (d :: (ds2 ++ c :: r)).drop (d :: ds2).length = c :: r :=
        List.drop_left _ _
      show matchUnicode ('\\' :: 'u' :: d :: (ds2 ++ c :: r)) =
        some (Int.ofNat (digitsVal (d :: ds2)), 2 + (d :: ds2).length)
      simp only [matchUnicode, List.head?_cons]
      simp only [show decide (some d = some '-') = false from by simp [hdm],
        Bool.false_eq_true, if_false]
      rw [htw2]
      simp only [List.isEmpty_cons, Bool.false_eq_true, if_false]
      rw [hdr2]
      simp only [List.head?_cons]
      rw [if_neg (by simp [hcq])]
      simp

/-- C5 witness: backslash-u66 followed by the non-question-mark fallback x
consumes only the digits (the x stays in the input), while a question-mark
fallback is consumed as part of the match. -/
theorem c5_amended_fallback_witness :
    stepFn [] ('\\' :: 'u' :: ['6', '6', 'x']) 0 initSt =
      (4, { initSt with buf := [66] }) ∧
    matchUnicode ('\\' :: 'u' :: (['6', '6'] ++ '?' :: [])) = some (66, 5) ∧
    matchUnicode ('\\' :: 'u' :: (['6'] ++ 'x' :: [])) = some (6, 3) := by
  refine ⟨?_, ?_, ?_⟩
  · exact c5_amended_fallback.1 [] ['6', '6', 'x'] 0 initSt 66 4 (by decide)
  · exact c5_amended_fallback.2.1 ['6', '6'] [] (by decide) (by decide)
  · exact c5_amended_fallback.2.2 ['6'] [] 'x' (by decide) (by decide)
      (by decide) (by decide)

end RTF
